import Mathlib

/-!
A shallow embedding of `src/network/__init__.py`: a fully-connected
feed-forward neural network trained by mini-batch stochastic gradient
descent with backpropagation.

Modelling conventions:
* Machine floats are modelled by `ℚ`; the algorithms under scrutiny are
  pure rational-field arithmetic once the activation function is treated
  as an abstract scalar function (the network takes its activation,
  activation-derivative and cost-derivative functions as configuration,
  so nothing in the algorithms depends on the default `sigmoid`, whose
  transcendental `exp` lies outside the claims considered here).
* NumPy 1-d arrays become `List ℚ` (`Vec`), 2-d arrays become row lists
  (`Mat`).
* Python operations that can raise (`list[i]` with an out-of-range
  index, NumPy fancy assignment `y[i] = 1`, division by zero, `np.argmax`
  of an empty array) return `Option`; `none` models a raised exception.
* In-place mutation of `self.weights` / `self.biases` becomes explicit
  state passing: methods that mutate the network return the new network.
* `np.random.shuffle` and `np.random.randn` are modelled by oracle
  function parameters supplying the shuffled list / the drawn entries.
-/

/-- A NumPy 1-d float array. -/
abbrev Vec := List ℚ

/-- A NumPy 2-d float array, as its list of rows. -/
abbrev Mat := List Vec

/-- Dot product of two vectors (`np.dot` on 1-d arrays). -/
def dot (u v : Vec) : ℚ := (List.zipWith (· * ·) u v).sum

/-- Matrix–vector product (`np.dot(w, v)` with `w` 2-d and `v` 1-d). -/
def matVec (m : Mat) (v : Vec) : Vec := m.map (fun r => dot r v)

/-- Elementwise vector addition (`u + v` in NumPy). -/
def vadd (u v : Vec) : Vec := List.zipWith (· + ·) u v

/-- Elementwise vector subtraction (`u - v` in NumPy). -/
def vsub (u v : Vec) : Vec := List.zipWith (· - ·) u v

/-- Elementwise (Hadamard) vector product (`u * v` in NumPy). -/
def vhad (u v : Vec) : Vec := List.zipWith (· * ·) u v

/-- Scalar times vector (`c * v` in NumPy). -/
def vscale (c : ℚ) (v : Vec) : Vec := v.map (fun x => c * x)

/-- Elementwise matrix addition. -/
def madd (a b : Mat) : Mat := List.zipWith vadd a b

/-- Elementwise matrix subtraction. -/
def msub (a b : Mat) : Mat := List.zipWith vsub a b

/-- Scalar times matrix. -/
def mscale (c : ℚ) (m : Mat) : Mat := m.map (vscale c)

/-- Outer product (`np.outer(u, v)`). -/
def outer (u v : Vec) : Mat := u.map (fun a => v.map (fun b => a * b))

/-- Matrix transpose (`m.T`) of a rectangular matrix: entry `(j, i)` of
the result is entry `(i, j)` of `m`; the number of columns is read off
the first row, as every row of a NumPy 2-d array has the same length. -/
def mtranspose (m : Mat) : Mat :=
  (List.range (m.headD []).length).map (fun j => m.map (fun r => r.getD j 0))

/-- `np.zeros(v.shape)` for a 1-d array `v` (`np.zeros_like`). -/
def zerosLike (v : Vec) : Vec := v.map (fun _ => 0)

/-- `np.zeros(m.shape)` for a 2-d array `m`. -/
def zerosLikeM (m : Mat) : Mat := m.map zerosLike

/-- Python `int(q)` on a float: truncation toward zero. -/
def pyInt (q : ℚ) : Int := Int.tdiv q.num q.den

/-- Python list subscript `l[i]`: non-negative indices are positions,
negative indices count from the end (`l[-j]` is position `length - j`);
anything outside `[-length, length)` raises `IndexError`, here `none`. -/
def pyIdx {α : Type} (l : List α) (i : Int) : Option α :=
  if 0 ≤ i then l.get? i.toNat
  else if (-i).toNat ≤ l.length then l.get? (l.length - (-i).toNat) else none

/-- Python list item assignment `l[i] = a`, with the same index rules as
`pyIdx`; an out-of-range index raises, here `none`. -/
def pySet {α : Type} (l : List α) (i : Int) (a : α) : Option (List α) :=
  if 0 ≤ i then
    if i < (l.length : Int) then some (l.set i.toNat a) else none
  else if (-i).toNat ≤ l.length then some (l.set (l.length - (-i).toNat) a) else none

/-- NumPy 1-d assignment `v[i] = c`: same index wrap-around and bounds
behaviour as a Python list (out of range raises `IndexError`). -/
def npSetIndex (v : Vec) (i : Int) (c : ℚ) : Option Vec := pySet v i c

/-- Scan keeping the current best value and the index of its first
occurrence; a later entry replaces the best only when strictly larger. -/
def npArgmaxAux : List ℚ → Nat → ℚ → Nat → Nat
  | [], _, _, best => best
  | x :: xs, i, bv, best =>
      if bv < x then npArgmaxAux xs (i + 1) x i else npArgmaxAux xs (i + 1) bv best

/-- `np.argmax` of a 1-d array: the index of the first maximal entry;
raises (`none`) on an empty array. -/
def npArgmax (v : Vec) : Option Nat :=
  match v with
  | [] => none
  | x :: xs => some (npArgmaxAux xs 1 x 0)

/-- Python `range(0, n, step)` for `step ≥ 1`: `0, step, 2*step, …`
strictly below `n`. (The callers guard `step = 0`, which raises.) -/
def pyRange (n step : Nat) : List Nat :=
  (List.range ((n + step - 1) / step)).map (fun i => i * step)

/-- Python `for`-loop over a list threading an accumulator, where the
body can raise: the first `none` aborts the whole loop. -/
def ofoldl {σ α : Type} (f : σ → α → Option σ) : σ → List α → Option σ
  | s, [] => some s
  | s, a :: l =>
      match f s a with
      | none => none
      | some s' => ofoldl f s' l

/-- Python list comprehension whose body can raise: builds the list of
results in order, aborting at the first raised exception (`none`). -/
def omap {α β : Type} (f : α → Option β) : List α → Option (List β)
  | [] => some []
  | x :: xs =>
      match f x with
      | none => none
      | some y =>
          match omap f xs with
          | none => none
          | some ys => some (y :: ys)

/-- The standard basis vector of length `n` with the `1` at position `p`
(the one-hot target vector the cost module builds). -/
def oneHot (n p : Nat) : Vec := (List.range n).map (fun j => if j = p then 1 else 0)

/-- `cost_function(output_activations, one_hot_index)` from the source:
builds `y = np.zeros_like(output_activations)`, sets `y[int(one_hot_index)] = 1`
(NumPy index semantics, so a bad index raises), and returns
`0.5 * np.sum((output_activations - y) ** 2)`. -/
def cost_function (output_activations : Vec) (one_hot_index : ℚ) : Option ℚ :=
  (npSetIndex (zerosLike output_activations) (pyInt one_hot_index) 1).map
    (fun y => 1/2 * ((vsub output_activations y).map (fun d => d ^ 2)).sum)

/-- `cost_derivative(output_activations, one_hot_index)` from the source:
the same one-hot construction, returning `output_activations - y`. -/
def cost_derivative (output_activations : Vec) (one_hot_index : ℚ) : Option Vec :=
  (npSetIndex (zerosLike output_activations) (pyInt one_hot_index) 1).map
    (fun y => vsub output_activations y)

/-- The `Network` object: the layer-structure array, the `num_layers`
attribute set at construction, one weight matrix and one bias vector per
layer transition, and the three configured functions (activation and its
derivative act elementwise, so they are carried as scalar functions; the
cost derivative can raise, hence `Option`). -/
structure Network where
  structureArr : List Nat
  num_layers : Nat
  weights : List Mat
  biases : List Vec
  activate_function : ℚ → ℚ
  activate_derivative : ℚ → ℚ
  cost_der : Vec → ℚ → Option Vec

/-- `Network.__init__`: records `num_layers = len(structure)` and the
configured functions, and takes the weights/biases when supplied, else
the random draws `randW layer` / `randB layer` for `layer` in
`range(1, num_layers)` (the `np.random.randn` calls are supplied by the
oracles). The body performs no validation whatsoever, so no structure is
ever rejected; the `Except` codomain records that no error is raised. -/
def Network.init (structureArr : List Nat) (weights? : Option (List Mat))
    (biases? : Option (List Vec)) (randW : Nat → Mat) (randB : Nat → Vec)
    (af ad : ℚ → ℚ) (cd : Vec → ℚ → Option Vec) : Except String Network :=
  Except.ok
    { structureArr := structureArr
      num_layers := structureArr.length
      weights := weights?.getD ((List.range' 1 (structureArr.length - 1)).map randW)
      biases := biases?.getD ((List.range' 1 (structureArr.length - 1)).map randB)
      activate_function := af
      activate_derivative := ad
      cost_der := cd }

/-- `forward_feed`: fold `output = activation(w · output + b)` over the
zipped weight/bias lists, starting from the input example. -/
def Network.forward_feed (net : Network) (ex : Vec) : Vec :=
  (net.weights.zip net.biases).foldl
    (fun output wb => (vadd (matVec wb.1 output) wb.2).map net.activate_function)
    ex

/-- The forward pass of `backprop`, accumulating the per-layer summatory
vectors and the activations computed after the current one. -/
def forwardTraceAux (af : ℚ → ℚ) : List (Mat × Vec) → Vec → List Vec × List Vec
  | [], _ => ([], [])
  | (w, b) :: rest, activation =>
      let summatory := vadd (matVec w activation) b
      let a := summatory.map af
      let (zs, as') := forwardTraceAux af rest a
      (summatory :: zs, a :: as')

/-- The forward pass of `backprop`: returns `summatory_matrix` (one
entry per transition) and `activation_matrix` (starting with the raw
input, as in the source where `activation_matrix = [x]`). -/
def Network.forwardTrace (net : Network) (x : Vec) : List Vec × List Vec :=
  let (zs, as') := forwardTraceAux net.activate_function (net.weights.zip net.biases) x
  (zs, x :: as')

/-- One iteration of the backward loop of `backprop`, at loop variable
`layer`: reads `self.weights[-layer + 1]`, `summatory_matrix[-layer]`
and `activation_matrix[-layer - 1]`, writes `nabla_biases[-layer]` and
`nabla_weights[-layer]`; any out-of-range index raises (`none`). -/
def backStep (net : Network) (zs as' : List Vec) (st : Vec × List Vec × List Mat)
    (layer : Nat) : Option (Vec × List Vec × List Mat) := do
  let (delta, nb, nw) := st
  let wNext ← pyIdx net.weights (-(layer : Int) + 1)
  let zl ← pyIdx zs (-(layer : Int))
  let delta' := vhad (matVec (mtranspose wNext) delta) (zl.map net.activate_derivative)
  let nb' ← pySet nb (-(layer : Int)) delta'
  let al ← pyIdx as' (-(layer : Int) - 1)
  let nw' ← pySet nw (-(layer : Int)) (outer delta' al)
  pure (delta', nb', nw')

/-- The backward loop of `backprop` over the listed values of `layer`
(`range(2, num_layers)` at the call site). -/
def backLoop (net : Network) (zs as' : List Vec) (st : Vec × List Vec × List Mat) :
    List Nat → Option (Vec × List Vec × List Mat)
  | [] => some st
  | layer :: rest =>
      match backStep net zs as' st layer with
      | none => none
      | some st' => backLoop net zs as' st' rest

/-- `backprop(x, y)`: zero-initialise the gradient accumulators, run the
forward pass, seed `delta = cost_derivative(activation_matrix[-1], y) *
activate_derivative(summatory_matrix[-1])`, write the output-layer
gradients, run the backward loop for `layer in range(2, num_layers)`,
and return `(nabla_weights, nabla_biases)` in that order. -/
def Network.backprop (net : Network) (x : Vec) (y : ℚ) : Option (List Mat × List Vec) := do
  let nabla_biases := net.biases.map zerosLike
  let nabla_weights := net.weights.map zerosLikeM
  let (zs, as') := net.forwardTrace x
  let aLast ← pyIdx as' (-1)
  let cd ← net.cost_der aLast y
  let zLast ← pyIdx zs (-1)
  let delta := vhad cd (zLast.map net.activate_derivative)
  let nb1 ← pySet nabla_biases (-1) delta
  let aPrev ← pyIdx as' (-2)
  let nw1 ← pySet nabla_weights (-1) (outer delta aPrev)
  let (_, nbF, nwF) ← backLoop net zs as' (delta, nb1, nw1) (List.range' 2 (net.num_layers - 2))
  pure (nwF, nbF)

/-- The body of the accumulation loop of `update_mini_batch`: one
example row contributes `backprop(row features, row label)` to the
running gradient sums (`x` is `row[:-1]`, the label is `row[-1]`). -/
def Network.batchGradStep (net : Network) (st : List Vec × List Mat) (row : Vec) :
    Option (List Vec × List Mat) := do
  let (nabla_biases, nabla_weights) := st
  let (nw, nb) ← net.backprop row.dropLast (row.getLastD 0)
  pure (List.zipWith vadd nabla_biases nb, List.zipWith madd nabla_weights nw)

/-- `update_mini_batch(mini_batch, learning_rate)`: zero accumulators,
sum the per-example `backprop` gradients over the batch, divide the
learning rate by `len(mini_batch)` (a zero-length batch raises
`ZeroDivisionError`, here `none`), and replace every weight matrix and
bias vector by `param - learning_rate * accumulated_gradient`. -/
def Network.update_mini_batch (net : Network) (mini_batch : Mat) (learning_rate : ℚ) :
    Option Network := do
  let nabla_biases := net.biases.map zerosLike
  let nabla_weights := net.weights.map zerosLikeM
  let acc ← ofoldl net.batchGradStep (nabla_biases, nabla_weights) mini_batch
  if mini_batch.length = 0 then none
  else
    let lr := learning_rate / (mini_batch.length : ℚ)
    pure { net with
      weights := List.zipWith (fun w nws => msub w (mscale lr nws)) net.weights acc.2
      biases := List.zipWith (fun b nbs => vsub b (vscale lr nbs)) net.biases acc.1 }

/-- The mini-batch slices built inside `sgd`:
`[data[k : k + mini_batch_size] for k in range(0, num_examples, mini_batch_size)]`,
where `num_examples` was measured on the dataset before shuffling. -/
def mini_batches (num_examples mini_batch_size : Nat) (data : Mat) : List Mat :=
  (pyRange num_examples mini_batch_size).map
    (fun k => (data.drop k).take mini_batch_size)

/-- `evaluate(test_data)`: for every row, the predicted label is
`np.argmax(forward_feed(row[:-1]))` (which raises on an empty output
vector); the return value is the number of exact matches with the label
column divided by the row count (`ZeroDivisionError`, hence `none`, on
an empty dataset), times 100. It reads the network but never writes it,
which the `Network → Mat → Option ℚ` shape makes structural. -/
def Network.evaluate (net : Network) (test_data : Mat) : Option ℚ := do
  let num_test_examples := test_data.length
  let test_result ← omap
    (fun row => (npArgmax (net.forward_feed row.dropLast)).map
      (fun (p : Nat) => ((p : ℚ), row.getLastD 0)))
    test_data
  let s := (test_result.map (fun pr => if pr.1 = pr.2 then (1 : ℚ) else 0)).sum
  if num_test_examples = 0 then none
  else pure (s / (num_test_examples : ℚ) * 100)

/-- `J_average(test_data)`: accumulate the module-level `cost_function`
of the forward output of every row against its label, then divide by the
row count (`ZeroDivisionError`, hence `none`, on an empty dataset). -/
def Network.J_average (net : Network) (test_data : Mat) : Option ℚ := do
  let num_test_examples := test_data.length
  let total_cost ← ofoldl
    (fun acc row =>
      (cost_function (net.forward_feed row.dropLast) (row.getLastD 0)).map (fun c => acc + c))
    0 test_data
  if num_test_examples = 0 then none
  else pure (total_cost / (num_test_examples : ℚ))

/-- One epoch of `sgd` carrying the (network, dataset) state: shuffle
the dataset in place (the oracle supplies the permuted rows), slice it
into mini-batches using the row count measured before the epoch loop
(`range` with step 0 raises `ValueError`, hence the guard), run
`update_mini_batch` on each batch in order, and, when test data is
present, compute the epoch metrics `evaluate` and `J_average` (whose
exceptions propagate); logging and checkpointing touch no network
state. -/
def Network.sgdEpoch (num_examples mini_batch_size : Nat) (learning_rate : ℚ)
    (shuffle : Nat → Mat → Mat) (test_data : Option Mat)
    (st : Network × Mat) (epoch : Nat) : Option (Network × Mat) := do
  let d' := shuffle epoch st.2
  if mini_batch_size = 0 then none
  else do
    let mbs := mini_batches num_examples mini_batch_size d'
    let n' ← ofoldl (fun nn mb => nn.update_mini_batch mb learning_rate) st.1 mbs
    match test_data with
    | some td => do
        let _ ← n'.evaluate td
        let _ ← n'.J_average td
        pure (n', d')
    | none => pure (n', d')

/-- Spec-side formulation of the backpropagation recurrence, for the
refinement proof against `Network.backprop`. With `k` weight matrices,
`specDeltaAux net zs cd m` is the error term of transition `k - 1 - m`:
at `m = 0` the output-layer seed `cd ⊙ σ'(final summatory)`, and each
further step multiplies by the transpose of the next transition's
weights and by `σ'` of this transition's summatory, elementwise. -/
def specDeltaAux (net : Network) (zs : List Vec) (cd : Vec) : Nat → Vec
  | 0 => vhad cd ((zs.getD (net.weights.length - 1) []).map net.activate_derivative)
  | m + 1 =>
      vhad
        (matVec (mtranspose (net.weights.getD (net.weights.length - 1 - m) []))
          (specDeltaAux net zs cd m))
        ((zs.getD (net.weights.length - 2 - m) []).map net.activate_derivative)

/-- The error term of transition `j` (`0 ≤ j < k`), reindexed from
`specDeltaAux`. -/
def specDelta (net : Network) (zs : List Vec) (cd : Vec) (j : Nat) : Vec :=
  specDeltaAux net zs cd (net.weights.length - 1 - j)

/-- The spec's bias gradients: at every transition, the error term. -/
def specNablaB (net : Network) (zs : List Vec) (cd : Vec) : List Vec :=
  (List.range net.weights.length).map (specDelta net zs cd)

/-- The spec's weight gradients: at every transition, the outer product
of the error term with the activation entering that transition. -/
def specNablaW (net : Network) (zs as' : List Vec) (cd : Vec) : List Mat :=
  (List.range net.weights.length).map
    (fun j => outer (specDelta net zs cd j) (as'.getD j []))

/-- The gradient-accumulator state of the backward loop after its `m`
first iterations: transitions `k - 1 - m` and later hold their error
terms, the earlier ones still hold the zero initialisation. -/
def nbStateAux (net : Network) (zs : List Vec) (cd : Vec) (m : Nat) : List Vec :=
  (List.range net.weights.length).map
    (fun j => if net.weights.length - 1 - m ≤ j then specDelta net zs cd j
      else zerosLike (net.biases.getD j []))

/-- The weight-gradient accumulator after the `m` first iterations of
the backward loop, analogous to `nbStateAux`. -/
def nwStateAux (net : Network) (zs as' : List Vec) (cd : Vec) (m : Nat) : List Mat :=
  (List.range net.weights.length).map
    (fun j => if net.weights.length - 1 - m ≤ j then
        outer (specDelta net zs cd j) (as'.getD j [])
      else zerosLikeM (net.weights.getD j []))

/-- A concrete two-transition network (structure `[1, 1, 1]`) with the
identity activation, constant-one activation derivative and the
pass-through cost derivative, used to exercise the theorems. -/
def netK2 : Network :=
  { structureArr := [1, 1, 1]
    num_layers := 3
    weights := [[[2]], [[3]]]
    biases := [[0], [0]]
    activate_function := id
    activate_derivative := fun _ => 1
    cost_der := fun a _ => some a }

/-- A concrete one-transition network (structure `[1, 1]`) with the same
function plumbing as `netK2`. -/
def netK1 : Network :=
  { structureArr := [1, 1]
    num_layers := 2
    weights := [[[2]]]
    biases := [[0]]
    activate_function := id
    activate_derivative := fun _ => 1
    cost_der := fun a _ => some a }

/-- `sgd(data, mini_batch_size, max_epochs, learning_rate, output_dir,
test_data)`: measure `num_examples`, run the epoch loop for `epoch in
range(max_epochs)`, then return `evaluate(test_data)` when test data was
supplied and the sentinel `0` otherwise. The returned pair carries the
final network state (the Python method mutates `self`). -/
def Network.sgd (net : Network) (data : Mat) (mini_batch_size max_epochs : Nat)
    (learning_rate : ℚ) (shuffle : Nat → Mat → Mat) (test_data : Option Mat) :
    Option (Network × ℚ) := do
  let num_examples := data.length
  let (net', _) ← ofoldl
    (Network.sgdEpoch num_examples mini_batch_size learning_rate shuffle test_data)
    (net, data) (List.range max_epochs)
  match test_data with
  | some td => do
      let r ← net'.evaluate td
      pure (net', r)
  | none => pure (net', 0)

/-! ### General list lemmas -/

theorem get?_eq_some_getD {α : Type} (l : List α) (n : Nat) (d : α) (h : n < l.length) :
    l.get? n = some (l.getD n d) := by
  rw [List.getD_eq_getElem?_getD, List.get?_eq_getElem?]
  simp [List.getElem?_eq_getElem h]

theorem set_range_map {β : Type} (k i : Nat) (g : Nat → β) (v : β) (hi : i < k) :
    ((List.range k).map g).set i v =
      (List.range k).map (fun j => if j = i then v else g j) := by
  apply List.ext_get?
  intro n
  rw [List.get?_eq_getElem?, List.get?_eq_getElem?, List.getElem?_set]
  by_cases hn : n < k
  · by_cases hni : i = n
    · subst hni
      simp [List.getElem?_map, List.getElem?_range hn, hi]
    · have hne : ¬ n = i := fun h => hni h.symm
      simp [hni, hne, List.getElem?_map, List.getElem?_range hn]
  · have hk' : k ≤ n := Nat.le_of_not_lt hn
    have hni : ¬ i = n := by omega
    rw [if_neg hni]
    rw [List.getElem?_eq_none, List.getElem?_eq_none] <;> simp [hk']

theorem map_eq_range_map {α β : Type} (f : α → β) (l : List α) (d : α) :
    l.map f = (List.range l.length).map (fun j => f (l.getD j d)) := by
  apply List.ext_get?
  intro n
  by_cases hn : n < l.length
  · rw [List.get?_eq_getElem?, List.get?_eq_getElem?]
    simp [List.getElem?_map, List.getElem?_range hn, List.getElem?_eq_getElem hn,
      List.getD_eq_getElem?_getD]
  · rw [List.get?_eq_getElem?, List.get?_eq_getElem?]
    rw [List.getElem?_eq_none, List.getElem?_eq_none] <;> simp [Nat.le_of_not_lt hn]

/-! ### Python index lemmas -/

theorem pyIdx_neg {α : Type} (l : List α) (j : Nat) (d : α) (h1 : 1 ≤ j)
    (h2 : j ≤ l.length) : pyIdx l (-(j : Int)) = some (l.getD (l.length - j) d) := by
  have hneg : ¬ (0 : Int) ≤ -(j : Int) := by omega
  have htn : (-(-(j : Int))).toNat = j := by omega
  rw [pyIdx, if_neg hneg, htn, if_pos h2]
  exact get?_eq_some_getD l (l.length - j) d (by omega)

theorem pySet_neg {α : Type} (l : List α) (j : Nat) (a : α) (h1 : 1 ≤ j)
    (h2 : j ≤ l.length) : pySet l (-(j : Int)) a = some (l.set (l.length - j) a) := by
  have hneg : ¬ (0 : Int) ≤ -(j : Int) := by omega
  have htn : (-(-(j : Int))).toNat = j := by omega
  rw [pySet, if_neg hneg, htn, if_pos h2]

/-! ### Forward-pass lengths -/

theorem forwardTraceAux_length (af : ℚ → ℚ) :
    ∀ (l : List (Mat × Vec)) (a : Vec),
      (forwardTraceAux af l a).1.length = l.length ∧
      (forwardTraceAux af l a).2.length = l.length := by
  intro l
  induction l with
  | nil => intro a; simp [forwardTraceAux]
  | cons wb rest ih =>
      intro a
      obtain ⟨w, b⟩ := wb
      simp only [forwardTraceAux]
      have := ih ((vadd (matVec w a) b).map af)
      constructor <;> simp [this.1, this.2]

theorem forwardTrace_lengths (net : Network) (x : Vec)
    (hb : net.biases.length = net.weights.length) :
    (net.forwardTrace x).1.length = net.weights.length ∧
    (net.forwardTrace x).2.length = net.weights.length + 1 := by
  have hzip : (net.weights.zip net.biases).length = net.weights.length := by
    simp [List.length_zip, hb]
  have h := forwardTraceAux_length net.activate_function (net.weights.zip net.biases) x
  constructor
  · simpa [Network.forwardTrace, hzip] using h.1
  · simpa [Network.forwardTrace, hzip] using h.2

/-! ### The backward loop of `backprop` against the spec recurrence -/

theorem backLoop_append (net : Network) (zs as' : List Vec)
    (st : Vec × List Vec × List Mat) (l₁ l₂ : List Nat) :
    backLoop net zs as' st (l₁ ++ l₂) =
      match backLoop net zs as' st l₁ with
      | none => none
      | some st' => backLoop net zs as' st' l₂ := by
  induction l₁ generalizing st with
  | nil => simp [backLoop]
  | cons layer rest ih =>
      simp only [List.cons_append, backLoop]
      cases backStep net zs as' st layer with
      | none => rfl
      | some st' => exact ih st'

theorem backStep_inv (net : Network) (zs as' : List Vec) (cd : Vec) (m : Nat)
    (hz : zs.length = net.weights.length)
    (ha : as'.length = net.weights.length + 1)
    (hm : m + 2 ≤ net.weights.length) :
    backStep net zs as'
      (specDeltaAux net zs cd m, nbStateAux net zs cd m, nwStateAux net zs as' cd m)
      (2 + m) =
    some (specDeltaAux net zs cd (m + 1), nbStateAux net zs cd (m + 1),
      nwStateAux net zs as' cd (m + 1)) := by
  have e2 : -((2 + m : Nat) : Int) = -(((m + 2 : Nat)) : Int) := by push_cast; ring
  have e1 : -(((m + 2 : Nat)) : Int) + 1 = -(((m + 1 : Nat)) : Int) := by push_cast; ring
  have e3 : -(((m + 2 : Nat)) : Int) - 1 = -(((m + 3 : Nat)) : Int) := by push_cast; ring
  have hnb : (nbStateAux net zs cd m).length = net.weights.length := by
    simp [nbStateAux]
  have hnw : (nwStateAux net zs as' cd m).length = net.weights.length := by
    simp [nwStateAux]
  have hw1 : pyIdx net.weights (-(((m + 1 : Nat)) : Int)) =
      some (net.weights.getD (net.weights.length - (m + 1)) []) :=
    pyIdx_neg net.weights (m + 1) [] (by omega) (by omega)
  have hz1 : pyIdx zs (-(((m + 2 : Nat)) : Int)) =
      some (zs.getD (net.weights.length - (m + 2)) []) := by
    have := pyIdx_neg zs (m + 2) [] (by omega) (by omega)
    rwa [hz] at this
  have ha1 : pyIdx as' (-(((m + 3 : Nat)) : Int)) =
      some (as'.getD (net.weights.length - (m + 2)) []) := by
    have := pyIdx_neg as' (m + 3) [] (by omega) (by omega)
    rw [ha] at this
    have eidx : net.weights.length + 1 - (m + 3) = net.weights.length - (m + 2) := by omega
    rwa [eidx] at this
  -- the propagated error of this iteration is the next spec error term
  have hdelta :
      vhad
        (matVec (mtranspose (net.weights.getD (net.weights.length - (m + 1)) []))
          (specDeltaAux net zs cd m))
        ((zs.getD (net.weights.length - (m + 2)) []).map net.activate_derivative) =
      specDeltaAux net zs cd (m + 1) := by
    have i1 : net.weights.length - (m + 1) = net.weights.length - 1 - m := by omega
    have i2 : net.weights.length - (m + 2) = net.weights.length - 2 - m := by omega
    rw [i1, i2, specDeltaAux]
  have hnbset : (nbStateAux net zs cd m).set (net.weights.length - (m + 2))
        (specDeltaAux net zs cd (m + 1)) = nbStateAux net zs cd (m + 1) := by
    rw [nbStateAux, set_range_map _ _ _ _ (by omega), nbStateAux]
    apply List.map_congr_left
    intro j hj
    rw [List.mem_range] at hj
    by_cases hje : j = net.weights.length - (m + 2)
    · subst hje
      have hcond : net.weights.length - 1 - (m + 1) ≤ net.weights.length - (m + 2) := by omega
      rw [if_pos rfl, if_pos hcond, specDelta]
      have : net.weights.length - 1 - (net.weights.length - (m + 2)) = m + 1 := by omega
      rw [this]
    · rw [if_neg hje]
      have : (net.weights.length - 1 - m ≤ j) ↔ (net.weights.length - 1 - (m + 1) ≤ j) := by
        omega
      by_cases hc : net.weights.length - 1 - m ≤ j
      · rw [if_pos hc, if_pos (this.mp hc)]
      · rw [if_neg hc, if_neg (fun h => hc (by omega))]
  have hnwset : (nwStateAux net zs as' cd m).set (net.weights.length - (m + 2))
        (outer (specDeltaAux net zs cd (m + 1))
          (as'.getD (net.weights.length - (m + 2)) [])) =
      nwStateAux net zs as' cd (m + 1) := by
    rw [nwStateAux, set_range_map _ _ _ _ (by omega), nwStateAux]
    apply List.map_congr_left
    intro j hj
    rw [List.mem_range] at hj
    by_cases hje : j = net.weights.length - (m + 2)
    · subst hje
      have hcond : net.weights.length - 1 - (m + 1) ≤ net.weights.length - (m + 2) := by omega
      rw [if_pos rfl, if_pos hcond, specDelta]
      have : net.weights.length - 1 - (net.weights.length - (m + 2)) = m + 1 := by omega
      rw [this]
    · rw [if_neg hje]
      have : (net.weights.length - 1 - m ≤ j) ↔ (net.weights.length - 1 - (m + 1) ≤ j) := by
        omega
      by_cases hc : net.weights.length - 1 - m ≤ j
      · rw [if_pos hc, if_pos (this.mp hc)]
      · rw [if_neg hc, if_neg (fun h => hc (by omega))]
  have hset1 : pySet (nbStateAux net zs cd m) (-(((m + 2 : Nat)) : Int))
        (specDeltaAux net zs cd (m + 1)) = some (nbStateAux net zs cd (m + 1)) := by
    rw [pySet_neg _ (m + 2) _ (by omega) (by rw [hnb]; omega), hnb, hnbset]
  have hset2 : pySet (nwStateAux net zs as' cd m) (-(((m + 2 : Nat)) : Int))
        (outer (specDeltaAux net zs cd (m + 1))
          (as'.getD (net.weights.length - (m + 2)) [])) =
      some (nwStateAux net zs as' cd (m + 1)) := by
    rw [pySet_neg _ (m + 2) _ (by omega) (by rw [hnw]; omega), hnw, hnwset]
  simp only [backStep, e2, e1, e3, hw1, hz1, ha1, Option.bind_eq_bind, Option.some_bind,
    hdelta, hset1, hset2, Option.pure_def]

theorem backLoop_inv (net : Network) (zs as' : List Vec) (cd : Vec)
    (hz : zs.length = net.weights.length)
    (ha : as'.length = net.weights.length + 1) :
    ∀ m, m ≤ net.weights.length - 1 →
      backLoop net zs as'
        (specDeltaAux net zs cd 0, nbStateAux net zs cd 0, nwStateAux net zs as' cd 0)
        (List.range' 2 m) =
      some (specDeltaAux net zs cd m, nbStateAux net zs cd m,
        nwStateAux net zs as' cd m) := by
  intro m
  induction m with
  | zero => intro _; rfl
  | succ m ih =>
      intro hm
      have hr : List.range' 2 (m + 1) = List.range' 2 m ++ [2 + m] := by
        rw [List.range'_concat, one_mul]
      rw [hr, backLoop_append, ih (by omega)]
      simp only [backLoop]
      rw [backStep_inv net zs as' cd m hz ha (by omega)]

/-- C1: for every network whose weight and bias lists match its layer
structure (one of each per transition, at least one transition) and
every example and label on which the configured cost derivative
succeeds, `backprop` returns exactly the gradients prescribed by the
spec recurrence: the output-layer error is the cost derivative
elementwise-times the activation derivative of the final summatory, each
earlier error is the transposed next-layer weights applied to the next
error, elementwise-times the activation derivative of this layer's
summatory, the bias gradient is the error and the weight gradient is the
outer product of the error with the activation entering the layer. -/
theorem backprop_follows_spec_recurrence (net : Network) (x : Vec) (y : ℚ) (cd : Vec)
    (hk : 1 ≤ net.weights.length)
    (hb : net.biases.length = net.weights.length)
    (hnl : net.num_layers = net.weights.length + 1)
    (hcd : net.cost_der ((net.forwardTrace x).2.getD net.weights.length []) y = some cd) :
    net.backprop x y =
      some (specNablaW net (net.forwardTrace x).1 (net.forwardTrace x).2 cd,
        specNablaB net (net.forwardTrace x).1 cd) := by
  obtain ⟨hzl, hal⟩ := forwardTrace_lengths net x hb
  rcases hpair : net.forwardTrace x with ⟨zs, as'⟩
  rw [hpair] at hzl hal hcd
  simp only at hzl hal hcd
  have hidx1 : pyIdx as' (-(1 : Int)) = some (as'.getD net.weights.length []) := by
    have h := pyIdx_neg as' 1 [] (by omega) (by omega)
    rwa [hal, Nat.add_sub_cancel] at h
  have hidx2 : pyIdx zs (-(1 : Int)) = some (zs.getD (net.weights.length - 1) []) := by
    have h := pyIdx_neg zs 1 [] (by omega) (by omega)
    rwa [hzl] at h
  have hidx3 : pyIdx as' (-(2 : Int)) = some (as'.getD (net.weights.length - 1) []) := by
    have h := pyIdx_neg as' 2 [] (by omega) (by omega)
    rw [hal] at h
    have e : net.weights.length + 1 - 2 = net.weights.length - 1 := by omega
    rwa [e] at h
  have hd0 : vhad cd ((zs.getD (net.weights.length - 1) []).map net.activate_derivative) =
      specDeltaAux net zs cd 0 := rfl
  have hnb0len : (net.biases.map zerosLike).length = net.weights.length := by
    simp [hb]
  have hnw0len : (net.weights.map zerosLikeM).length = net.weights.length := by simp
  have hset1 : pySet (net.biases.map zerosLike) (-(1 : Int)) (specDeltaAux net zs cd 0) =
      some (nbStateAux net zs cd 0) := by
    have h := pySet_neg (net.biases.map zerosLike) 1 (specDeltaAux net zs cd 0)
      (by omega) (by rw [hnb0len]; omega)
    simp only [Nat.cast_one] at h
    rw [h, hnb0len]
    rw [map_eq_range_map zerosLike net.biases [], hb,
      set_range_map _ _ _ _ (by omega), nbStateAux]
    congr 1
    apply List.map_congr_left
    intro j hj
    rw [List.mem_range] at hj
    by_cases hje : j = net.weights.length - 1
    · subst hje
      rw [if_pos rfl, if_pos (by omega), specDelta]
      have e : net.weights.length - 1 - (net.weights.length - 1) = 0 := by omega
      rw [e]
    · rw [if_neg hje, if_neg (by omega)]
  have hset2 : pySet (net.weights.map zerosLikeM) (-(1 : Int))
        (outer (specDeltaAux net zs cd 0) (as'.getD (net.weights.length - 1) [])) =
      some (nwStateAux net zs as' cd 0) := by
    have h := pySet_neg (net.weights.map zerosLikeM) 1
      (outer (specDeltaAux net zs cd 0) (as'.getD (net.weights.length - 1) []))
      (by omega) (by rw [hnw0len]; omega)
    simp only [Nat.cast_one] at h
    rw [h, hnw0len]
    rw [map_eq_range_map zerosLikeM net.weights [],
      set_range_map _ _ _ _ (by omega), nwStateAux]
    congr 1
    apply List.map_congr_left
    intro j hj
    rw [List.mem_range] at hj
    by_cases hje : j = net.weights.length - 1
    · subst hje
      rw [if_pos rfl, if_pos (by omega), specDelta]
      have e : net.weights.length - 1 - (net.weights.length - 1) = 0 := by omega
      rw [e]
    · rw [if_neg hje, if_neg (by omega)]
  have hrange : net.num_layers - 2 = net.weights.length - 1 := by omega
  have hloop := backLoop_inv net zs as' cd hzl hal (net.weights.length - 1) (le_refl _)
  have hfin1 : nbStateAux net zs cd (net.weights.length - 1) = specNablaB net zs cd := by
    rw [nbStateAux, specNablaB]
    apply List.map_congr_left
    intro j hj
    rw [List.mem_range] at hj
    rw [if_pos (by omega)]
  have hfin2 : nwStateAux net zs as' cd (net.weights.length - 1) =
      specNablaW net zs as' cd := by
    rw [nwStateAux, specNablaW]
    apply List.map_congr_left
    intro j hj
    rw [List.mem_range] at hj
    rw [if_pos (by omega)]
  rw [hfin1, hfin2] at hloop
  simp only [Network.backprop, hpair, hidx1, hcd, hidx2, hd0, hset1, hidx3, hset2, hrange,
    hloop, Option.bind_eq_bind, Option.some_bind, Option.pure_def]

unseal Rat.add Rat.mul Rat.sub Rat.inv in
/-- Concrete instantiation of `backprop_follows_spec_recurrence`: the
two-transition network `netK2` on example `[1]` with label `0`. -/
theorem backprop_follows_spec_recurrence_witness :
    1 ≤ netK2.weights.length ∧
    netK2.biases.length = netK2.weights.length ∧
    netK2.num_layers = netK2.weights.length + 1 ∧
    netK2.cost_der ((netK2.forwardTrace [1]).2.getD netK2.weights.length []) 0 = some [6] ∧
    netK2.backprop [1] 0 =
      some (specNablaW netK2 (netK2.forwardTrace [1]).1 (netK2.forwardTrace [1]).2 [6],
        specNablaB netK2 (netK2.forwardTrace [1]).1 [6]) :=
  ⟨by decide, by decide, by decide, by rfl,
    backprop_follows_spec_recurrence netK2 [1] 0 [6] (by decide) (by decide) (by decide)
      (by rfl)⟩

/-! ### The mini-batch updater against the batch gradient sum -/

theorem batchGrad_ofoldl (net : Network) :
    ∀ (mb : Mat) (grads : List (List Mat × List Vec)) (st : List Vec × List Mat),
      List.Forall₂ (fun row g => net.backprop row.dropLast (row.getLastD 0) = some g)
        mb grads →
      ofoldl net.batchGradStep st mb =
        some (grads.foldl
          (fun acc g => (List.zipWith vadd acc.1 g.2, List.zipWith madd acc.2 g.1)) st) := by
  intro mb
  induction mb with
  | nil =>
      intro grads st h
      cases h
      rfl
  | cons row rest ih =>
      intro grads st h
      cases h with
      | cons hg hrest =>
          rename_i g gs
          obtain ⟨gw, gb⟩ := g
          obtain ⟨nbs, nws⟩ := st
          simp only [ofoldl, Network.batchGradStep, hg, Option.bind_eq_bind, Option.some_bind,
            Option.pure_def, List.foldl_cons]
          exact ih gs _ hrest

/-- C2: on every non-empty mini-batch whose rows all have a successful
`backprop` gradient, `update_mini_batch` replaces every weight matrix
and bias vector by its old value minus `learning_rate / batch_size`
times the sum over the batch of that parameter's per-example gradient. -/
theorem update_mini_batch_gradient_step (net : Network) (mb : Mat) (lr : ℚ)
    (grads : List (List Mat × List Vec))
    (hne : mb ≠ [])
    (hg : List.Forall₂ (fun row g => net.backprop row.dropLast (row.getLastD 0) = some g)
      mb grads) :
    net.update_mini_batch mb lr =
      some { net with
        weights := List.zipWith (fun w nws => msub w (mscale (lr / (mb.length : ℚ)) nws))
          net.weights
          (grads.foldl
            (fun acc g => (List.zipWith vadd acc.1 g.2, List.zipWith madd acc.2 g.1))
            (net.biases.map zerosLike, net.weights.map zerosLikeM)).2
        biases := List.zipWith (fun b nbs => vsub b (vscale (lr / (mb.length : ℚ)) nbs))
          net.biases
          (grads.foldl
            (fun acc g => (List.zipWith vadd acc.1 g.2, List.zipWith madd acc.2 g.1))
            (net.biases.map zerosLike, net.weights.map zerosLikeM)).1 } := by
  have hlen : ¬ mb.length = 0 := fun h => hne (List.length_eq_zero.mp h)
  simp only [Network.update_mini_batch,
    batchGrad_ofoldl net mb grads (net.biases.map zerosLike, net.weights.map zerosLikeM) hg,
    Option.bind_eq_bind, Option.some_bind, if_neg hlen, Option.pure_def]

unseal Rat.add Rat.mul Rat.sub Rat.inv in
/-- Concrete instantiation of `update_mini_batch_gradient_step`: the
one-transition network `netK1`, the one-row batch `[[1, 0]]` and
learning rate `1`. -/
theorem update_mini_batch_gradient_step_witness :
    ([[1, 0]] : Mat) ≠ [] ∧
    List.Forall₂ (fun row g => netK1.backprop row.dropLast (row.getLastD 0) = some g)
      ([[1, 0]] : Mat) [([[[2]]], [[2]])] ∧
    netK1.update_mini_batch [[1, 0]] 1 =
      some { netK1 with
        weights := List.zipWith
          (fun w nws => msub w (mscale ((1 : ℚ) / (([[1, 0]] : Mat).length : ℚ)) nws))
          netK1.weights
          (([([[[2]]], [[2]])] : List (List Mat × List Vec)).foldl
            (fun acc g => (List.zipWith vadd acc.1 g.2, List.zipWith madd acc.2 g.1))
            (netK1.biases.map zerosLike, netK1.weights.map zerosLikeM)).2
        biases := List.zipWith
          (fun b nbs => vsub b (vscale ((1 : ℚ) / (([[1, 0]] : Mat).length : ℚ)) nbs))
          netK1.biases
          (([([[[2]]], [[2]])] : List (List Mat × List Vec)).foldl
            (fun acc g => (List.zipWith vadd acc.1 g.2, List.zipWith madd acc.2 g.1))
            (netK1.biases.map zerosLike, netK1.weights.map zerosLikeM)).1 } :=
  ⟨by decide, by decide,
    update_mini_batch_gradient_step netK1 [[1, 0]] 1 [([[[2]]], [[2]])] (by decide) (by decide)⟩

/-! ### Learning rate zero is the identity update -/

theorem vsub_vscale_zero (r s : Vec) (h : r.length ≤ s.length) : vsub r (vscale 0 s) = r := by
  induction r generalizing s with
  | nil => rfl
  | cons a as ih =>
      cases s with
      | nil => simp at h
      | cons b bs =>
          show (a - 0 * b) :: vsub as (vscale 0 bs) = a :: as
          rw [zero_mul, sub_zero, ih bs (by simpa using h)]

theorem msub_mscale_zero (w s : Mat)
    (hrow : List.Forall₂ (fun (r t : Vec) => r.length ≤ t.length) w s) :
    msub w (mscale 0 s) = w := by
  induction hrow with
  | nil => rfl
  | cons h _ ih =>
      simp only [mscale, List.map_cons, msub, List.zipWith_cons_cons]
      rw [vsub_vscale_zero _ _ h]
      simp only [msub, mscale] at ih
      rw [ih]

theorem zipWith_msub_mscale_zero (ws ss : List Mat)
    (h : List.Forall₂
      (fun (w s : Mat) => List.Forall₂ (fun (r t : Vec) => r.length ≤ t.length) w s) ws ss) :
    List.zipWith (fun w s => msub w (mscale 0 s)) ws ss = ws := by
  induction h with
  | nil => rfl
  | cons hw _ ih =>
      simp only [List.zipWith_cons_cons]
      rw [msub_mscale_zero _ _ hw, ih]

theorem zipWith_vsub_vscale_zero (bs ss : List Vec)
    (h : List.Forall₂ (fun (b s : Vec) => b.length ≤ s.length) bs ss) :
    List.zipWith (fun b s => vsub b (vscale 0 s)) bs ss = bs := by
  induction h with
  | nil => rfl
  | cons hb _ ih =>
      simp only [List.zipWith_cons_cons]
      rw [vsub_vscale_zero _ _ hb, ih]

/-- C7: on every non-empty mini-batch whose gradient accumulation
succeeds with accumulator shapes covering the parameter shapes,
`update_mini_batch` with learning rate `0` succeeds and leaves every
weight matrix and every bias vector equal to its previous value. (When
the accumulation raises instead, the Python method propagates the
exception before reaching the assignment, so the parameters are also
unchanged in that case.) -/
theorem update_mini_batch_zero_lr (net : Network) (mb : Mat) (acc : List Vec × List Mat)
    (hne : mb ≠ [])
    (hsum : ofoldl net.batchGradStep
      (net.biases.map zerosLike, net.weights.map zerosLikeM) mb = some acc)
    (hW : List.Forall₂
      (fun (w s : Mat) => List.Forall₂ (fun (r t : Vec) => r.length ≤ t.length) w s)
      net.weights acc.2)
    (hB : List.Forall₂ (fun (b s : Vec) => b.length ≤ s.length) net.biases acc.1) :
    ∃ net', net.update_mini_batch mb 0 = some net' ∧
      net'.weights = net.weights ∧ net'.biases = net.biases := by
  have hlen : ¬ mb.length = 0 := fun h => hne (List.length_eq_zero.mp h)
  refine ⟨{ net with
      weights := List.zipWith (fun w nws => msub w (mscale ((0 : ℚ) / (mb.length : ℚ)) nws))
        net.weights acc.2
      biases := List.zipWith (fun b nbs => vsub b (vscale ((0 : ℚ) / (mb.length : ℚ)) nbs))
        net.biases acc.1 }, ?_, ?_, ?_⟩
  · simp only [Network.update_mini_batch, hsum, Option.bind_eq_bind, Option.some_bind,
      if_neg hlen, Option.pure_def]
  · simp only [zero_div]
    exact zipWith_msub_mscale_zero net.weights acc.2 hW
  · simp only [zero_div]
    exact zipWith_vsub_vscale_zero net.biases acc.1 hB

unseal Rat.add Rat.mul Rat.sub Rat.inv in
/-- Concrete instantiation of `update_mini_batch_zero_lr`: `netK1` with
the one-row batch `[[1, 0]]`. -/
theorem update_mini_batch_zero_lr_witness :
    ([[1, 0]] : Mat) ≠ [] ∧
    ofoldl netK1.batchGradStep
      (netK1.biases.map zerosLike, netK1.weights.map zerosLikeM) [[1, 0]] =
      some ([[2]], [[[2]]]) ∧
    (∃ net', netK1.update_mini_batch [[1, 0]] 0 = some net' ∧
      net'.weights = netK1.weights ∧ net'.biases = netK1.biases) :=
  ⟨by decide, by decide,
    update_mini_batch_zero_lr netK1 [[1, 0]] ([[2]], [[[2]]]) (by decide) (by decide)
      (by decide) (by decide)⟩

/-! ### `sgd` with zero epochs -/

/-- C5: `sgd` with `max_epochs = 0` performs no update at all: the
returned network is the input network itself, and the returned value is
`evaluate(test_data)` on those untouched parameters when test data is
supplied (any exception of `evaluate` propagating), else the sentinel
`0`. -/
theorem sgd_zero_epochs (net : Network) (data : Mat) (mini_batch_size : Nat)
    (learning_rate : ℚ) (shuffle : Nat → Mat → Mat) (test_data : Option Mat) :
    net.sgd data mini_batch_size 0 learning_rate shuffle test_data =
      match test_data with
      | none => some (net, 0)
      | some td => (net.evaluate td).map (fun r => (net, r)) := by
  cases test_data with
  | none => rfl
  | some td =>
      simp only [Network.sgd, List.range_zero, ofoldl, Option.bind_eq_bind, Option.some_bind]
      cases h : net.evaluate td with
      | none => simp [h]
      | some r => simp [h]

/-! ### Empty test data raises in `evaluate` and `J_average` -/

/-- C9: on an empty test dataset both `evaluate` and `J_average` reach
their final division with `num_test_examples = 0` and raise
`ZeroDivisionError` (modelled as `none`) instead of returning a value;
neither contains a guard for this case. -/
theorem evaluate_J_average_empty_raise (net : Network) :
    net.evaluate [] = none ∧ net.J_average [] = none :=
  ⟨rfl, rfl⟩

/-! ### `evaluate` as a percentage of arg-max matches -/

theorem omap_eq_map {α β : Type} (f : α → Option β) (g : α → β) :
    ∀ (l : List α), (∀ x ∈ l, f x = some (g x)) → omap f l = some (l.map g) := by
  intro l
  induction l with
  | nil => intro _; rfl
  | cons a as ih =>
      intro h
      have ha := h a (by simp)
      have has := ih (fun x hx => h x (by simp [hx]))
      simp only [omap, ha, has, List.map_cons]

theorem npArgmax_of_ne_nil (v : Vec) (h : v ≠ []) :
    npArgmax v = some ((npArgmax v).getD 0) := by
  cases v with
  | nil => exact absurd rfl h
  | cons x xs => rfl

theorem sum_indicator_eq_countP (l : List (ℚ × ℚ)) :
    (l.map (fun pr => if pr.1 = pr.2 then (1 : ℚ) else 0)).sum =
      ((l.countP (fun pr => decide (pr.1 = pr.2)) : Nat) : ℚ) := by
  induction l with
  | nil => simp
  | cons a as ih =>
      simp only [List.map_cons, List.sum_cons, ih, List.countP_cons]
      by_cases hc : a.1 = a.2
      · simp [hc, add_comm]
      · simp [hc]

/-- C6: on every non-empty test dataset all of whose rows produce a
non-empty forward output, `evaluate` returns 100 times the fraction of
rows whose arg-max of `forward_feed` over the feature columns equals the
label column; being a pure function of the network, it cannot alter the
weights or biases. -/
theorem evaluate_percentage (net : Network) (td : Mat)
    (hne : td ≠ [])
    (hout : ∀ row ∈ td, net.forward_feed row.dropLast ≠ []) :
    net.evaluate td =
      some (100 *
        ((td.countP (fun row =>
          decide ((((npArgmax (net.forward_feed row.dropLast)).getD 0 : Nat) : ℚ) =
            row.getLastD 0)) : Nat) : ℚ) / (td.length : ℚ)) := by
  have hlen : ¬ td.length = 0 := fun h => hne (List.length_eq_zero.mp h)
  have homap : omap
      (fun row => (npArgmax (net.forward_feed row.dropLast)).map
        (fun (p : Nat) => ((p : ℚ), row.getLastD 0)))
      td =
      some (td.map (fun row =>
        ((((npArgmax (net.forward_feed row.dropLast)).getD 0 : Nat) : ℚ), row.getLastD 0))) := by
    apply omap_eq_map
    intro row hrow
    rw [npArgmax_of_ne_nil _ (hout row hrow)]
    rfl
  simp only [Network.evaluate, homap, Option.bind_eq_bind, Option.some_bind, if_neg hlen,
    Option.pure_def, Option.some.injEq]
  rw [sum_indicator_eq_countP, List.countP_map]
  have hfrac : ∀ s n : ℚ, s / n * 100 = 100 * s / n := by intro s n; ring
  rw [hfrac]
  rfl

unseal Rat.add Rat.mul Rat.sub Rat.inv in
/-- Concrete instantiation of `evaluate_percentage`: `netK1` on the
one-row dataset `[[1, 0]]`, where the arg-max of the forward output is
index `0` and matches the label `0`. -/
theorem evaluate_percentage_witness :
    ([[1, 0]] : Mat) ≠ [] ∧
    (∀ row ∈ ([[1, 0]] : Mat), netK1.forward_feed row.dropLast ≠ []) ∧
    netK1.evaluate [[1, 0]] =
      some (100 *
        ((([[1, 0]] : Mat).countP (fun row =>
          decide ((((npArgmax (netK1.forward_feed row.dropLast)).getD 0 : Nat) : ℚ) =
            row.getLastD 0)) : Nat) : ℚ) / ((([[1, 0]] : Mat).length : Nat) : ℚ)) :=
  ⟨by decide, by decide, evaluate_percentage netK1 [[1, 0]] (by decide) (by decide)⟩

/-! ### Mini-batch slices inside `sgd` are never empty -/

theorem pyRange_lt (n s : Nat) (hs : 1 ≤ s) : ∀ k ∈ pyRange n s, k < n := by
  intro k hk
  rw [pyRange, List.mem_map] at hk
  obtain ⟨i, hi, rfl⟩ := hk
  rw [List.mem_range] at hi
  have h2 : (i + 1) * s ≤ n + s - 1 := (Nat.le_div_iff_mul_le hs).mp hi
  have h3 : i * s + s ≤ n + s - 1 := by rw [Nat.succ_mul] at h2; omega
  omega

/-- C10: with at least one data row and a positive mini-batch size,
every slice `sgd` builds starts strictly below the row count and is
non-empty, so the division by `len(mini_batch)` inside
`update_mini_batch` is never a division by zero during `sgd`. -/
theorem sgd_mini_batches_nonempty (data : Mat) (mini_batch_size : Nat)
    (hd : 1 ≤ data.length) (hs : 1 ≤ mini_batch_size) :
    (∀ k ∈ pyRange data.length mini_batch_size, k < data.length) ∧
    (∀ mb ∈ mini_batches data.length mini_batch_size data, mb ≠ []) := by
  refine ⟨pyRange_lt data.length mini_batch_size hs, ?_⟩
  intro mb hmb
  rw [mini_batches, List.mem_map] at hmb
  obtain ⟨k, hk, rfl⟩ := hmb
  have hlt := pyRange_lt data.length mini_batch_size hs k hk
  intro hemp
  have hlen : ((data.drop k).take mini_batch_size).length = 0 := by rw [hemp]; rfl
  rw [List.length_take, List.length_drop] at hlen
  omega

unseal Rat.add Rat.mul Rat.sub Rat.inv in
/-- Concrete instantiation of `sgd_mini_batches_nonempty`: a one-row
dataset with batch size one. -/
theorem sgd_mini_batches_nonempty_witness :
    1 ≤ ([[1, 0]] : Mat).length ∧ 1 ≤ 1 ∧
    ((∀ k ∈ pyRange ([[1, 0]] : Mat).length 1, k < ([[1, 0]] : Mat).length) ∧
     (∀ mb ∈ mini_batches ([[1, 0]] : Mat).length 1 [[1, 0]], mb ≠ [])) :=
  ⟨by decide, by decide, sgd_mini_batches_nonempty [[1, 0]] 1 (by decide) (by decide)⟩

/-! ### Index behaviour of the cost module -/

theorem pyInt_intCast (i : Int) : pyInt ((i : Int) : ℚ) = i := by
  rw [pyInt]
  simp [Rat.intCast_num, Rat.intCast_den, Int.tdiv_one]

theorem zerosLike_length (v : Vec) : (zerosLike v).length = v.length := by
  simp [zerosLike]

theorem npSetIndex_neg (v : Vec) (i : Int) (c : ℚ)
    (hlo : -(v.length : Int) ≤ i) (hhi : i < 0) :
    npSetIndex v i c = some (v.set (v.length - (-i).toNat) c) := by
  rw [npSetIndex, pySet, if_neg (by omega), if_pos (by omega)]

theorem zeros_set_oneHot (v : Vec) (p : Nat) (hp : p < v.length) :
    (zerosLike v).set p 1 = oneHot v.length p := by
  rw [zerosLike, map_eq_range_map (fun _ => (0 : ℚ)) v 0,
    set_range_map _ _ _ _ hp, oneHot]

/-- C8: for every output vector of length `n` and integer target index
`i` with `-n ≤ i < 0`, `cost_function` and `cost_derivative` both
succeed, silently placing the one-hot `1` at the wrapped position
`n + i`, exactly as NumPy indexing prescribes. -/
theorem cost_negative_index_wraps (a : Vec) (i : Int)
    (hlo : -(a.length : Int) ≤ i) (hhi : i < 0) :
    cost_derivative a ((i : Int) : ℚ) =
      some (vsub a (oneHot a.length ((a.length : Int) + i).toNat)) ∧
    (cost_function a ((i : Int) : ℚ)).isSome := by
  have hzl : (zerosLike a).length = a.length := zerosLike_length a
  have hset := npSetIndex_neg (zerosLike a) i 1 (by rw [hzl]; exact hlo) hhi
  rw [hzl] at hset
  have hpos : a.length - (-i).toNat = ((a.length : Int) + i).toNat := by omega
  have hlt : a.length - (-i).toNat < a.length := by omega
  have hone : (zerosLike a).set (a.length - (-i).toNat) 1 =
      oneHot a.length (((a.length : Int) + i).toNat) := by
    rw [zeros_set_oneHot a _ hlt, hpos]
  constructor
  · rw [cost_derivative, pyInt_intCast, hset, hone]
    rfl
  · rw [cost_function, pyInt_intCast, hset]
    rfl

unseal Rat.add Rat.mul Rat.sub Rat.inv in
/-- Concrete instantiation of `cost_negative_index_wraps`: the length-3
vector `[1, 2, 3]` with index `-2`, whose one-hot lands at position 1. -/
theorem cost_negative_index_wraps_witness :
    -(([1, 2, 3] : Vec).length : Int) ≤ (-2 : Int) ∧ ((-2 : Int) < 0) ∧
    (cost_derivative [1, 2, 3] (((-2 : Int) : Int) : ℚ) =
      some (vsub [1, 2, 3]
        (oneHot ([1, 2, 3] : Vec).length ((([1, 2, 3] : Vec).length : Int) + (-2 : Int)).toNat)) ∧
    (cost_function [1, 2, 3] (((-2 : Int) : Int) : ℚ)).isSome) :=
  ⟨by decide, by decide, cost_negative_index_wraps [1, 2, 3] (-2) (by decide) (by decide)⟩

theorem npSetIndex_eq_none_iff (v : Vec) (i : Int) :
    (npSetIndex v i 1 = none ↔ ((v.length : Int) ≤ i ∨ i < -(v.length : Int))) := by
  rw [npSetIndex, pySet]
  by_cases h1 : 0 ≤ i
  · rw [if_pos h1]
    by_cases h2 : i < (v.length : Int)
    · rw [if_pos h2]
      constructor
      · intro h; exact absurd h (by simp)
      · intro h; omega
    · rw [if_neg h2]
      constructor
      · intro _; omega
      · intro _; rfl
  · rw [if_neg h1]
    by_cases h2 : (-i).toNat ≤ v.length
    · rw [if_pos h2]
      constructor
      · intro h; exact absurd h (by simp)
      · intro h; omega
    · rw [if_neg h2]
      constructor
      · intro _; omega
      · intro _; rfl

/-- C3 as amended: `cost_function` and `cost_derivative` raise an error
exactly when the integer target index `i` satisfies `i ≥ n` or
`i < -n` (`n` the output vector's length); every index in `[-n, n)`
succeeds, indices in `[0, n)` hitting their own position and negative
ones wrapping around as in `cost_negative_index_wraps`. -/
theorem cost_error_exactly_outside_wrap_range (a : Vec) (i : Int) :
    (cost_function a ((i : Int) : ℚ) = none ↔
      ((a.length : Int) ≤ i ∨ i < -(a.length : Int))) ∧
    (cost_derivative a ((i : Int) : ℚ) = none ↔
      ((a.length : Int) ≤ i ∨ i < -(a.length : Int))) := by
  have hzl : (zerosLike a).length = a.length := zerosLike_length a
  have hbase := npSetIndex_eq_none_iff (zerosLike a) i
  rw [hzl] at hbase
  constructor
  · rw [cost_function, pyInt_intCast, Option.map_eq_none']
    exact hbase
  · rw [cost_derivative, pyInt_intCast, Option.map_eq_none']
    exact hbase

unseal Rat.add Rat.mul Rat.sub Rat.inv in
/-- Counterexample to C3 as stated: the index `-1` lies outside the
bounds `[0, 2)` of a length-2 output vector, yet `cost_function` does
not fail; it returns the value `1/4` (the one-hot having wrapped to the
last position). -/
theorem cost_function_accepts_negative_index :
    cost_function [1/2, 1/2] (-1) = some (1/4) := by decide

/-! ### Construction performs no validation -/

/-- Counterexample to C4 as stated: constructing a network over the
one-layer structure `[1]` is not rejected; it succeeds and yields a
network with no weight matrices and no bias vectors. -/
theorem init_single_layer_accepted :
    Network.init [1] none none (fun _ => []) (fun _ => []) id id cost_derivative =
      Except.ok
        { structureArr := [1], num_layers := 1, weights := [], biases := [],
          activate_function := id, activate_derivative := id,
          cost_der := cost_derivative } := rfl

/-- C4 as amended: construction is never rejected — `__init__` contains
no validation, so every layer structure, including the degenerate ones
with fewer than two layers, is accepted. -/
theorem init_never_rejects (structureArr : List Nat) (weights? : Option (List Mat))
    (biases? : Option (List Vec)) (randW : Nat → Mat) (randB : Nat → Vec)
    (af ad : ℚ → ℚ) (cd : Vec → ℚ → Option Vec) :
    ∃ net, Network.init structureArr weights? biases? randW randB af ad cd =
        Except.ok net :=
  ⟨_, rfl⟩
